import Mathlib

/-!
Shallow embedding of the cost-model and scenario-sweep code of
`run_analysis.py` and `run_comprehensive_analysis.py`
(repository `Breaking-the-Sorting-Barrier-for-Directed-Single-Source-Shortest-Paths`).

A numpy double is modelled by `NpFloat`: an ideal real number extended with
the IEEE special values `+inf`, `-inf` and `nan` (rounding and overflow are
not modelled, so `fin x` carries an exact real).  A 1-D numpy array is a
`List NpFloat`.  An element-wise binary operation on two arrays is
`np_binop`, which fails (`none`) when the arrays have different lengths,
mirroring the broadcast error numpy raises for incompatible 1-D shapes
(length-1/scalar broadcasting is never exercised by the program and is not
modelled).  Unary ufuncs are `List.map` of the scalar operation.

Both Python files define `cost_dijkstra`, `cost_duan_et_al` and
`cost_quantum_grover` with identical bodies; they are embedded once below.
`cost_quantum_wesolowski` appears only in `run_comprehensive_analysis.py`.
-/

noncomputable section

/-- A numpy double-precision value: a finite real, an infinity, or NaN. -/
inductive NpFloat where
  | fin (x : ℝ)
  | posInf
  | negInf
  | nan

namespace NpFloat

/-- Scalar version of `np.isneginf`. -/
def isneginf : NpFloat → Bool
  | negInf => true
  | _ => false

/-- Scalar version of `np.log2`: `-inf` at zero, NaN on negative input. -/
def np_log2 : NpFloat → NpFloat
  | fin x => if 0 < x then fin (Real.logb 2 x) else if x = 0 then negInf else nan
  | posInf => posInf
  | negInf => nan
  | nan => nan

/-- Scalar version of `np.sqrt`: NaN on negative input. -/
def np_sqrt : NpFloat → NpFloat
  | fin x => if 0 ≤ x then fin (Real.sqrt x) else nan
  | posInf => posInf
  | negInf => nan
  | nan => nan

/-- Scalar version of `** (2/3)` (the fractional power used by
`cost_duan_et_al`): NaN on a negative finite base, and IEEE
`pow(-inf, 2/3) = +inf` on `-inf`. -/
def np_pow23 : NpFloat → NpFloat
  | fin x => if 0 ≤ x then fin (x ^ ((2 : ℝ) / 3)) else nan
  | posInf => posInf
  | negInf => posInf
  | nan => nan

/-- Scalar IEEE multiplication (`0 * inf = nan`, signs propagate). -/
def np_mul : NpFloat → NpFloat → NpFloat
  | nan, _ => nan
  | _, nan => nan
  | fin x, fin y => fin (x * y)
  | fin x, posInf => if 0 < x then posInf else if x < 0 then negInf else nan
  | fin x, negInf => if 0 < x then negInf else if x < 0 then posInf else nan
  | posInf, fin y => if 0 < y then posInf else if y < 0 then negInf else nan
  | negInf, fin y => if 0 < y then negInf else if y < 0 then posInf else nan
  | posInf, posInf => posInf
  | posInf, negInf => negInf
  | negInf, posInf => negInf
  | negInf, negInf => posInf

/-- Scalar IEEE addition (`inf + -inf = nan`). -/
def np_add : NpFloat → NpFloat → NpFloat
  | nan, _ => nan
  | _, nan => nan
  | fin x, fin y => fin (x + y)
  | fin _, posInf => posInf
  | fin _, negInf => negInf
  | posInf, fin _ => posInf
  | negInf, fin _ => negInf
  | posInf, posInf => posInf
  | posInf, negInf => nan
  | negInf, posInf => nan
  | negInf, negInf => negInf

end NpFloat

open NpFloat

/-- Element-wise binary operation on two 1-D numpy arrays; `none` models the
broadcast `ValueError` numpy raises when the shapes differ. -/
def np_binop (f : NpFloat → NpFloat → NpFloat) (a b : List NpFloat) :
    Option (List NpFloat) :=
  if a.length = b.length then some (List.zipWith f a b) else none

/-- `cost_dijkstra(n, m)`: `return m + n * np.log2(n)`. -/
def cost_dijkstra (n m : List NpFloat) : Option (List NpFloat) := do
  let t ← np_binop np_mul n (n.map np_log2)
  np_binop np_add m t

/-- `cost_duan_et_al(n, m)`:
`log_val = np.log2(n); log_val[np.isneginf(log_val)] = 0;`
`return m * (log_val)**(2/3)` (the `np.errstate` context only suppresses
warnings, which have no observable effect on the returned array). -/
def cost_duan_et_al (n m : List NpFloat) : Option (List NpFloat) :=
  let log_val := n.map np_log2
  let log_val := log_val.map (fun v => if v.isneginf then fin 0 else v)
  np_binop np_mul m (log_val.map np_pow23)

/-- `cost_quantum_grover(n, m)`: `return np.sqrt(n) * m`. -/
def cost_quantum_grover (n m : List NpFloat) : Option (List NpFloat) :=
  np_binop np_mul (n.map np_sqrt) m

/-- `cost_quantum_wesolowski(n, m, l)`: `return l * np.sqrt(m)`
(the first argument `n` is not used by the formula). -/
def cost_quantum_wesolowski (n m l : List NpFloat) : Option (List NpFloat) :=
  np_binop np_mul l (m.map np_sqrt)

/-- `np.logspace(a, b, num)`: `num` points `10 ** e` with exponents spaced
evenly from `a` to `b` inclusive (`e_k = a + (b - a) * k / (num - 1)`). -/
def logspace (a b : ℝ) (num : Nat) : List ℝ :=
  (List.range num).map fun k : ℕ =>
    (10 : ℝ) ^ (a + (b - a) * (k : ℝ) / ((num - 1 : ℕ) : ℝ))

/-- `run_analysis.py` line 30: `n_values = np.logspace(3, 9, num=100)`. -/
def n_values : List ℝ := logspace 3 9 100

/-- `run_analysis.py` line 40: `m_sparse = 10 * n_values`. -/
def m_sparse : List ℝ := n_values.map fun n => 10 * n

/-- `run_analysis.py` line 80: `n_values_dense = np.logspace(3, 5, num=100)`. -/
def n_values_dense : List ℝ := logspace 3 5 100

/-- `run_analysis.py` line 81: `m_dense = (n_values_dense**2) / 100`. -/
def m_dense : List ℝ := n_values_dense.map fun n => n ^ 2 / 100

/-- `run_comprehensive_analysis.py` line 95: `n_vals = np.logspace(3, 9, 100)`. -/
def n_vals : List ℝ := logspace 3 9 100

/-- `run_comprehensive_analysis.py` line 116: `n_vals_dense = np.logspace(3, 5, 100)`. -/
def n_vals_dense : List ℝ := logspace 3 5 100

/-- `np.argmin(np.abs(xs - t))`: index of the element of `xs` nearest to
`t`, first occurrence on ties (numpy `argmin` returns the first minimum). -/
def argmin_abs (t : ℝ) : List ℝ → Nat
  | [] => 0
  | [_] => 0
  | x :: y :: rest =>
      if |(y :: rest).getD (argmin_abs t (y :: rest)) 0 - t| < |x - t| then
        argmin_abs t (y :: rest) + 1
      else 0

/-- `xs.min()` of a (nonempty) numpy array. -/
def np_min : List ℝ → ℝ
  | [] => 0
  | x :: rest => rest.foldl min x

/-- `xs.max()` of a (nonempty) numpy array. -/
def np_max : List ℝ → ℝ
  | [] => 0
  | x :: rest => rest.foldl max x

/-- One iteration of the sample loop of `run_and_plot_scenario`
(`run_comprehensive_analysis.py` lines 57-59): skip a representative value
outside the sweep's range, otherwise select the nearest sweep index. -/
def sample_index (nvals : List ℝ) (p : ℝ) : Option Nat :=
  if p > np_max nvals ∨ p < np_min nvals then none
  else some (argmin_abs p nvals)

/-- The cost dictionary built by `run_and_plot_scenario`
(`run_comprehensive_analysis.py` lines 43-49): three series always, the
Wesolowski series only when a path-length function was supplied. -/
structure ScenarioCosts where
  dijkstra : Option (List NpFloat)
  duan : Option (List NpFloat)
  grover : Option (List NpFloat)
  wesolowski : Option (Option (List NpFloat))

/-- `run_and_plot_scenario` lines 39-49: derive `m_values` (and `l_values`
when `l_func` is supplied) from the sweep, then evaluate each applicable
cost function. -/
def run_costs (nvals : List ℝ) (m_func : ℝ → ℝ) (l_func : Option (ℝ → ℝ)) :
    ScenarioCosts :=
  let m_values := nvals.map m_func
  let l_values := l_func.map fun f => nvals.map f
  { dijkstra := cost_dijkstra (nvals.map fin) (m_values.map fin)
    duan := cost_duan_et_al (nvals.map fin) (m_values.map fin)
    grover := cost_quantum_grover (nvals.map fin) (m_values.map fin)
    wesolowski := l_values.map fun l =>
      cost_quantum_wesolowski (nvals.map fin) (m_values.map fin) (l.map fin) }

/-- One scenario run of the program: sweep exponent bounds, sweep sample
count, the fixed representative values of its sample loop, the edge-count
derivation, the optional path-length derivation, and which file it comes
from. -/
structure SweepCase where
  lo : ℝ
  hi : ℝ
  count : Nat
  reps : List ℝ
  m_func : ℝ → ℝ
  l_func : Option (ℝ → ℝ)
  fromComprehensive : Bool

/-- The six scenario runs of the program, in execution order: two in
`run_analysis.py` (lines 38-55 and 78-96) and four in
`run_comprehensive_analysis.py` (lines 98-134, whose sample loop at line 57
always uses `[1e4, 1e6, 1e8]`).  The path-length derivations
`np.log2(n)**2` and `n / 10` are modelled as real functions, which agrees
with the source on the strictly positive sweeps they are applied to. -/
def program_cases : List SweepCase :=
  [⟨3, 9, 100, [1000, 1000000, 1000000000], fun n => 10 * n, none, false⟩,
   ⟨3, 5, 100, [1000, 10000, 100000], fun n => n ^ 2 / 100, none, false⟩,
   ⟨3, 9, 100, [10000, 1000000, 100000000], fun n => 10 * n,
     some (fun n => Real.logb 2 n ^ 2), true⟩,
   ⟨3, 9, 100, [10000, 1000000, 100000000], fun n => 10 * n,
     some (fun n => n / 10), true⟩,
   ⟨3, 5, 100, [10000, 1000000, 100000000], fun n => n ^ 2 / 100,
     some (fun n => Real.logb 2 n ^ 2), true⟩,
   ⟨3, 5, 100, [10000, 1000000, 100000000], fun n => n ^ 2 / 100,
     some (fun n => n / 10), true⟩]

/-- A cost series is well-formed for a sweep of length `len`: same length,
and every entry a finite non-negative real. -/
def series_ok (s : List NpFloat) (len : Nat) : Prop :=
  s.length = len ∧ List.Forall (fun v => ∃ x : ℝ, 0 ≤ x ∧ v = fin x) s

/-- All cost series of one `run_and_plot_scenario` call are produced,
aligned with the sweep, finite and non-negative; the fourth series is
present exactly when a path-length function was supplied. -/
def costs_ok (nvals : List ℝ) (m_func : ℝ → ℝ) (l_func : Option (ℝ → ℝ)) : Prop :=
  (∃ s, (run_costs nvals m_func l_func).dijkstra = some s ∧ series_ok s nvals.length) ∧
  (∃ s, (run_costs nvals m_func l_func).duan = some s ∧ series_ok s nvals.length) ∧
  (∃ s, (run_costs nvals m_func l_func).grover = some s ∧ series_ok s nvals.length) ∧
  (match l_func with
   | some _ => ∃ s, (run_costs nvals m_func l_func).wesolowski = some (some s) ∧
       series_ok s nvals.length
   | none => (run_costs nvals m_func l_func).wesolowski = none)

/-- A heap of numpy array buffers, for stating frame properties: Python
variables hold references into the store, and the masked assignment
`log_val[...] = 0` is an in-place write to one buffer. -/
abbrev NpStore : Type := List (List NpFloat)

/-- Dereference a buffer id. -/
def readBuf (st : NpStore) (i : Nat) : List NpFloat := st.getD i []

/-- Append a freshly allocated buffer. -/
def allocBuf (st : NpStore) (b : List NpFloat) : NpStore := st ++ [b]

/-- Store-level `cost_dijkstra`: every intermediate (`np.log2(n)`,
`n * ...`, `m + ...`) is a freshly allocated array; nothing is written in
place.  Returns the new store and the buffer id of the result. -/
def cost_dijkstra_heap (st : NpStore) (nId mId : Nat) : NpStore × Nat :=
  let st1 := allocBuf st ((readBuf st nId).map np_log2)
  let st2 := allocBuf st1 (List.zipWith np_mul (readBuf st1 nId) (readBuf st1 st.length))
  let st3 := allocBuf st2 (List.zipWith np_add (readBuf st2 mId) (readBuf st2 st1.length))
  (st3, st2.length)

/-- Store-level `cost_duan_et_al`: `np.log2(n)` allocates a fresh buffer
`log_val`; the masked assignment `log_val[np.isneginf(log_val)] = 0` then
writes into that fresh buffer in place (`List.set` on the store); the
remaining intermediates are fresh allocations. -/
def cost_duan_et_al_heap (st : NpStore) (nId mId : Nat) : NpStore × Nat :=
  let logId := st.length
  let st1 := allocBuf st ((readBuf st nId).map np_log2)
  let st2 := st1.set logId
    ((readBuf st1 logId).map fun v => if v.isneginf then fin 0 else v)
  let st3 := allocBuf st2 ((readBuf st2 logId).map np_pow23)
  let st4 := allocBuf st3 (List.zipWith np_mul (readBuf st3 mId) (readBuf st3 st2.length))
  (st4, st3.length)

/-- Store-level `cost_quantum_grover`: fresh allocations only. -/
def cost_quantum_grover_heap (st : NpStore) (nId mId : Nat) : NpStore × Nat :=
  let st1 := allocBuf st ((readBuf st nId).map np_sqrt)
  let st2 := allocBuf st1 (List.zipWith np_mul (readBuf st1 st.length) (readBuf st1 mId))
  (st2, st1.length)

/-- Store-level `cost_quantum_wesolowski`: fresh allocations only. -/
def cost_quantum_wesolowski_heap (st : NpStore) (nId mId lId : Nat) : NpStore × Nat :=
  let st1 := allocBuf st ((readBuf st mId).map np_sqrt)
  let st2 := allocBuf st1 (List.zipWith np_mul (readBuf st1 lId) (readBuf st1 st.length))
  (st2, st1.length)

/-! ### Generic list lemmas -/

theorem getD_zipWith_lt {α β γ : Type} (f : α → β → γ) (da : α) (db : β) (dc : γ) :
    ∀ (as : List α) (bs : List β) (i : Nat), i < as.length → i < bs.length →
      (List.zipWith f as bs).getD i dc = f (as.getD i da) (bs.getD i db) := by
  intro as
  induction as with
  | nil => intro bs i h _; simp at h
  | cons a as ih =>
      intro bs i h1 h2
      cases bs with
      | nil => simp at h2
      | cons b bs =>
          cases i with
          | zero => simp
          | succ i =>
              simp only [List.zipWith_cons_cons, List.getD_cons_succ]
              exact ih bs i (by simpa using h1) (by simpa using h2)

theorem exists_of_mem_zipWith {α β γ : Type} {f : α → β → γ} :
    ∀ {as : List α} {bs : List β} {c : γ}, c ∈ List.zipWith f as bs →
      ∃ a ∈ as, ∃ b ∈ bs, c = f a b := by
  intro as
  induction as with
  | nil => intro bs c h; simp [List.zipWith] at h
  | cons a as ih =>
      intro bs c h
      cases bs with
      | nil => simp [List.zipWith] at h
      | cons b bs =>
          simp only [List.zipWith_cons_cons, List.mem_cons] at h
          rcases h with h | h
          · exact ⟨a, by simp, b, by simp, h⟩
          · obtain ⟨a', ha', b', hb', hc⟩ := ih h
            exact ⟨a', by simp [ha'], b', by simp [hb'], hc⟩

theorem getD_mem_of_lt {α : Type} (l : List α) (d : α) (i : Nat) (h : i < l.length) :
    l.getD i d ∈ l := by
  rw [List.getD_eq_getElem l d h]
  exact List.getElem_mem h

/-! ### Scalar evaluation lemmas for the numpy operations -/

theorem np_log2_fin_pos {x : ℝ} (h : 0 < x) :
    np_log2 (fin x) = fin (Real.logb 2 x) := by
  simp [np_log2, h]

theorem np_log2_fin_zero : np_log2 (fin 0) = negInf := by
  simp [np_log2]

theorem np_sqrt_fin {x : ℝ} (h : 0 ≤ x) : np_sqrt (fin x) = fin (Real.sqrt x) := by
  simp [np_sqrt, h]

theorem np_pow23_fin {x : ℝ} (h : 0 ≤ x) :
    np_pow23 (fin x) = fin (x ^ ((2 : ℝ) / 3)) := by
  simp [np_pow23, h]

theorem np_pow23_fin_neg {x : ℝ} (h : x < 0) : np_pow23 (fin x) = nan := by
  simp [np_pow23, not_le.mpr h]

theorem np_mul_fin (x y : ℝ) : np_mul (fin x) (fin y) = fin (x * y) := rfl

theorem np_mul_fin_nan (x : ℝ) : np_mul (fin x) nan = nan := rfl

theorem np_add_fin (x y : ℝ) : np_add (fin x) (fin y) = fin (x + y) := rfl

theorem isneginf_fin (x : ℝ) : (fin x).isneginf = false := rfl

theorem isneginf_negInf : negInf.isneginf = true := rfl

/-! ### Normal forms of the four cost functions on finite real inputs -/

theorem cost_dijkstra_eq (n m : List ℝ) (hlen : m.length = n.length) :
    cost_dijkstra (n.map fin) (m.map fin)
      = some (List.zipWith
          (fun b a => np_add (fin b) (np_mul (fin a) (np_log2 (fin a)))) m n) := by
  unfold cost_dijkstra np_binop
  rw [List.map_map, List.zipWith_map_right, List.zipWith_map_left, List.zipWith_same]
  simp [hlen, List.zipWith_map_left, List.zipWith_map_right, Function.comp]

theorem cost_duan_et_al_eq (n m : List ℝ) (hlen : m.length = n.length) :
    cost_duan_et_al (n.map fin) (m.map fin)
      = some (List.zipWith
          (fun b a => np_mul (fin b)
            (np_pow23 (if (np_log2 (fin a)).isneginf then fin 0 else np_log2 (fin a))))
          m n) := by
  unfold cost_duan_et_al np_binop
  simp [hlen, List.map_map, List.zipWith_map_left, List.zipWith_map_right, Function.comp]

theorem cost_quantum_grover_eq (n m : List ℝ) (hlen : n.length = m.length) :
    cost_quantum_grover (n.map fin) (m.map fin)
      = some (List.zipWith (fun a b => np_mul (np_sqrt (fin a)) (fin b)) n m) := by
  unfold cost_quantum_grover np_binop
  simp [hlen, List.map_map, List.zipWith_map_left, List.zipWith_map_right, Function.comp]

theorem cost_quantum_wesolowski_eq (n m l : List ℝ) (hlm : l.length = m.length) :
    cost_quantum_wesolowski (n.map fin) (m.map fin) (l.map fin)
      = some (List.zipWith (fun c b => np_mul (fin c) (np_sqrt (fin b))) l m) := by
  unfold cost_quantum_wesolowski np_binop
  simp [hlm, List.map_map, List.zipWith_map_left, List.zipWith_map_right, Function.comp]

/-! ### Claim theorems -/

/-- C2: for equal-length real sequences with every `n[i] ≥ 1`,
`dijkstra_cost` returns a same-length sequence whose `i`-th element is
`m[i] + n[i] * log2(n[i])`, element-wise in input order. -/
theorem claim_C2 (n m : List ℝ) (hlen : m.length = n.length) (hn : ∀ x ∈ n, 1 ≤ x) :
    ∃ r, cost_dijkstra (n.map fin) (m.map fin) = some r ∧ r.length = n.length ∧
      ∀ i, i < n.length →
        r.getD i nan = fin (m.getD i 0 + n.getD i 0 * Real.logb 2 (n.getD i 0)) := by
  refine ⟨_, cost_dijkstra_eq n m hlen, ?_, ?_⟩
  · simp [List.length_zipWith]; omega
  · intro i hi
    rw [getD_zipWith_lt _ 0 0 nan m n i (by omega) hi]
    have h1 : (1 : ℝ) ≤ n.getD i 0 := hn _ (getD_mem_of_lt n 0 i hi)
    rw [np_log2_fin_pos (lt_of_lt_of_le zero_lt_one h1), np_mul_fin, np_add_fin]

/-- C2 witness: at `n = [1]`, `m = [0]` the returned series is exactly `[0]`. -/
theorem claim_C2_witness : cost_dijkstra [fin (1 : ℝ)] [fin (0 : ℝ)] = some [fin 0] := by
  obtain ⟨r, hr, hlen, hp⟩ := claim_C2 [1] [0] (by simp) (by simp)
  simp only [List.map_cons, List.map_nil] at hr
  have h0 := hp 0 (by simp)
  rcases r with _ | ⟨a, _ | ⟨b, t⟩⟩
  · simp at hlen
  · simp only [List.getD_cons_zero] at h0
    rw [hr, h0]
    norm_num [Real.logb_one]
  · simp at hlen

/-- C8: `new_classical_cost` evaluated at `n = 1` returns `0` (a finite
zero, not NaN and not an infinity) for every `m ≥ 0`. -/
theorem claim_C8 (m : ℝ) (_hm : 0 ≤ m) :
    cost_duan_et_al [fin (1 : ℝ)] [fin m] = some [fin 0] := by
  have h := cost_duan_et_al_eq [1] [m] (by simp)
  simp only [List.map_cons, List.map_nil] at h
  rw [h]
  norm_num [List.zipWith, np_log2, Real.logb_one, NpFloat.isneginf, np_pow23,
    Real.zero_rpow, np_mul_fin]

/-- C8 witness: the concrete instance `m = 5`. -/
theorem claim_C8_witness : cost_duan_et_al [fin (1 : ℝ)] [fin (5 : ℝ)] = some [fin 0] :=
  claim_C8 5 (by norm_num)

/-- C9: for aligned equal-length sequences with every `m[i] > 0`,
`divide_and_conquer_quantum_cost` returns a same-length sequence whose
`i`-th element is `l[i] * sqrt(m[i])`. -/
theorem claim_C9 (n m l : List ℝ) (hnm : n.length = m.length) (hml : m.length = l.length)
    (hm : ∀ x ∈ m, 0 < x) :
    ∃ r, cost_quantum_wesolowski (n.map fin) (m.map fin) (l.map fin) = some r ∧
      r.length = n.length ∧
      ∀ i, i < n.length →
        r.getD i nan = fin (l.getD i 0 * Real.sqrt (m.getD i 0)) := by
  refine ⟨_, cost_quantum_wesolowski_eq n m l (by omega), ?_, ?_⟩
  · simp [List.length_zipWith]; omega
  · intro i hi
    have him : i < m.length := by omega
    rw [getD_zipWith_lt _ 0 0 nan l m i (by omega) him,
      np_sqrt_fin (le_of_lt (hm _ (getD_mem_of_lt m 0 i him))), np_mul_fin]

/-- C9 witness: at `m = [16]`, `l = [4]` the returned series is exactly
`[16]` (`4 * sqrt 16 = 16`). -/
theorem claim_C9_witness :
    cost_quantum_wesolowski [fin (1 : ℝ)] [fin (16 : ℝ)] [fin (4 : ℝ)]
      = some [fin 16] := by
  obtain ⟨r, hr, hlen, hp⟩ := claim_C9 [1] [16] [4] (by simp) (by simp) (by norm_num)
  simp only [List.map_cons, List.map_nil] at hr
  have h0 := hp 0 (by simp)
  have hs : Real.sqrt 16 = 4 := by
    rw [show (16 : ℝ) = 4 ^ 2 by norm_num, Real.sqrt_sq (by norm_num : (0 : ℝ) ≤ 4)]
  rcases r with _ | ⟨a, _ | ⟨b, t⟩⟩
  · simp at hlen
  · simp only [List.getD_cons_zero] at h0
    rw [hr, h0]
    norm_num [hs]
  · simp at hlen

/-- C5: on any aligned non-negative real inputs, each of the four cost
functions completes without signalling failure, returning a full series
aligned with the input (in the embedding, a raised error is `none`; the
only failure the embedding can produce is the broadcast shape error, which
aligned inputs never trigger). -/
theorem claim_C5 (n m l : List ℝ) (hnm : m.length = n.length) (hlm : l.length = m.length)
    (_hn : ∀ x ∈ n, 0 ≤ x) (_hm : ∀ x ∈ m, 0 ≤ x) (_hl : ∀ x ∈ l, 0 ≤ x) :
    (∃ r, cost_dijkstra (n.map fin) (m.map fin) = some r ∧ r.length = n.length) ∧
    (∃ r, cost_duan_et_al (n.map fin) (m.map fin) = some r ∧ r.length = n.length) ∧
    (∃ r, cost_quantum_grover (n.map fin) (m.map fin) = some r ∧ r.length = n.length) ∧
    (∃ r, cost_quantum_wesolowski (n.map fin) (m.map fin) (l.map fin) = some r ∧
      r.length = n.length) := by
  refine ⟨⟨_, cost_dijkstra_eq n m hnm, ?_⟩, ⟨_, cost_duan_et_al_eq n m hnm, ?_⟩,
    ⟨_, cost_quantum_grover_eq n m hnm.symm, ?_⟩,
    ⟨_, cost_quantum_wesolowski_eq n m l hlm, ?_⟩⟩ <;>
    · simp [List.length_zipWith]; omega

/-- C5 witness: all four cost functions succeed on the aligned input
`n = [2]`, `m = [3]`, `l = [4]`. -/
theorem claim_C5_witness :
    (∃ r, cost_dijkstra ([(2 : ℝ)].map fin) ([(3 : ℝ)].map fin) = some r ∧ r.length = 1) ∧
    (∃ r, cost_duan_et_al ([(2 : ℝ)].map fin) ([(3 : ℝ)].map fin) = some r ∧ r.length = 1) ∧
    (∃ r, cost_quantum_grover ([(2 : ℝ)].map fin) ([(3 : ℝ)].map fin) = some r ∧
      r.length = 1) ∧
    (∃ r, cost_quantum_wesolowski ([(2 : ℝ)].map fin) ([(3 : ℝ)].map fin)
      ([(4 : ℝ)].map fin) = some r ∧ r.length = 1) := by
  simpa using claim_C5 [2] [3] [4] (by simp) (by simp) (by norm_num) (by norm_num)
    (by norm_num)

/-- C1 (amended): for aligned non-negative inputs, every position where the
intermediate `log2` is `-inf` (that is, `n[i] = 0`) is substituted to give
the finite value `0`; and provided every `n[i]` is `0` or at least `1`, the
whole series is finite and non-negative.  (For `0 < n[i] < 1` the claim as
stated fails: the logarithm is finite negative, not `-inf`, so it is not
substituted, and the fractional power yields NaN — see the
counterexample.) -/
theorem claim_C1 (n m : List ℝ) (hlen : m.length = n.length)
    (hn : ∀ x ∈ n, x = 0 ∨ 1 ≤ x) (hm : ∀ x ∈ m, 0 ≤ x) :
    ∃ r, cost_duan_et_al (n.map fin) (m.map fin) = some r ∧ r.length = n.length ∧
      (∀ i, i < n.length → n.getD i 0 = 0 → r.getD i nan = fin 0) ∧
      (∀ i, i < n.length → ∃ x : ℝ, 0 ≤ x ∧ r.getD i nan = fin x) := by
  refine ⟨_, cost_duan_et_al_eq n m hlen, ?_, ?_, ?_⟩
  · simp [List.length_zipWith]; omega
  · intro i hi h0
    rw [getD_zipWith_lt _ 0 0 nan m n i (by omega) hi, h0, np_log2_fin_zero]
    norm_num [isneginf_negInf, np_pow23, Real.zero_rpow, np_mul_fin]
  · intro i hi
    have hmx : 0 ≤ m.getD i 0 := hm _ (getD_mem_of_lt m 0 i (by omega))
    rw [getD_zipWith_lt _ 0 0 nan m n i (by omega) hi]
    rcases hn _ (getD_mem_of_lt n 0 i hi) with h0 | h1
    · rw [h0, np_log2_fin_zero]
      refine ⟨0, le_rfl, ?_⟩
      norm_num [isneginf_negInf, np_pow23, Real.zero_rpow, np_mul_fin]
    · rw [np_log2_fin_pos (by linarith : (0 : ℝ) < n.getD i 0)]
      have hlb : 0 ≤ Real.logb 2 (n.getD i 0) := Real.logb_nonneg one_lt_two h1
      simp only [isneginf_fin, Bool.false_eq_true, if_false]
      rw [np_pow23_fin hlb, np_mul_fin]
      exact ⟨_, mul_nonneg hmx (Real.rpow_nonneg hlb _), rfl⟩

/-- C1 witness: at `n = [0]`, `m = [7]` (a `-inf` logarithm position) the
substitution produces the finite value `0`. -/
theorem claim_C1_witness :
    ∃ r, cost_duan_et_al ([(0 : ℝ)].map fin) ([(7 : ℝ)].map fin) = some r ∧
      r.length = 1 ∧ r.getD 0 nan = fin 0 := by
  obtain ⟨r, hr, hlen, hz, _⟩ := claim_C1 [0] [7] (by simp) (by norm_num) (by norm_num)
  exact ⟨r, hr, by simpa using hlen, by simpa using hz 0 (by simp) (by simp)⟩

/-- C1 counterexample: `n = [1/2]`, `m = [1]` is in the documented
non-negative domain, but the intermediate `log2(1/2) = -1` is finite (not
`-inf`, hence not substituted) and `(-1) ** (2/3)` is NaN, so the returned
series contains NaN, contradicting the claim as stated. -/
theorem claim_C1_cex :
    (0 : ℝ) ≤ 1 / 2 ∧ (0 : ℝ) ≤ 1 ∧
      cost_duan_et_al [fin ((1 : ℝ) / 2)] [fin (1 : ℝ)] = some [nan] := by
  refine ⟨by norm_num, by norm_num, ?_⟩
  have h := cost_duan_et_al_eq [(1 : ℝ) / 2] [1] (by simp)
  simp only [List.map_cons, List.map_nil] at h
  rw [h]
  have hneg : Real.logb 2 (1 / 2) < 0 :=
    Real.logb_neg one_lt_two (by norm_num) (by norm_num)
  simp only [List.zipWith]
  rw [np_log2_fin_pos (by norm_num : (0 : ℝ) < 1 / 2)]
  simp only [isneginf_fin, Bool.false_eq_true, if_false]
  rw [np_pow23_fin_neg hneg, np_mul_fin_nan]

/-- C3 counterexample: the claim fails on the code.  The third scenario run
(`run_comprehensive_analysis.py` scenario "Sparse Graph, Short Path") sweeps
10^3 to 10^9 but its sample loop (line 57) uses the representative values
`[1e4, 1e6, 1e8]`, not `[1e3, 1e6, 1e9]`. -/
theorem claim_C3_cex :
    ¬ ∀ c ∈ program_cases,
        ((c.lo = 3 ∧ c.hi = 9 → c.reps = [1000, 1000000, 1000000000]) ∧
         (c.lo = 3 ∧ c.hi = 5 → c.reps = [1000, 10000, 100000])) := by
  intro h
  have hmem : (⟨3, 9, 100, [10000, 1000000, 100000000], fun n => 10 * n,
      some (fun n => Real.logb 2 n ^ 2), true⟩ : SweepCase) ∈ program_cases := by
    simp only [program_cases]
    exact List.mem_cons_of_mem _ (List.mem_cons_of_mem _ (List.mem_cons_self _ _))
  have h3 := (h _ hmem).1 ⟨rfl, rfl⟩
  simp only [List.cons.injEq] at h3
  exact absurd h3.1 (by norm_num)

/-- C3 (amended): the representative-value policy of the claim holds only
for the two scenario runs of `run_analysis.py` (10^3,10^6,10^9 for its wide
sweep and 10^3,10^4,10^5 for its narrow sweep); every scenario run of
`run_comprehensive_analysis.py` uses the single fixed list
10^4,10^6,10^8 regardless of the sweep's span. -/
theorem claim_C3 (c : SweepCase) (hc : c ∈ program_cases) :
    (c.fromComprehensive = false → c.lo = 3 → c.hi = 9 →
      c.reps = [1000, 1000000, 1000000000]) ∧
    (c.fromComprehensive = false → c.lo = 3 → c.hi = 5 →
      c.reps = [1000, 10000, 100000]) ∧
    (c.fromComprehensive = true → c.reps = [10000, 1000000, 100000000]) := by
  simp only [program_cases, List.mem_cons, List.not_mem_nil, or_false] at hc
  rcases hc with rfl | rfl | rfl | rfl | rfl | rfl <;> refine ⟨?_, ?_, ?_⟩ <;> norm_num

/-- C3 witness: the first `run_analysis.py` scenario (wide sweep) does use
the representative values 10^3, 10^6, 10^9. -/
theorem claim_C3_witness :
    (⟨3, 9, 100, [1000, 1000000, 1000000000], fun n => 10 * n, none, false⟩ :
      SweepCase).reps = [1000, 1000000, 1000000000] :=
  (claim_C3 _ (by simp only [program_cases]; exact List.mem_cons_self _ _)).1 rfl rfl rfl

/-! ### Lemmas about `argmin_abs` -/

theorem argmin_abs_nil (t : ℝ) : argmin_abs t [] = 0 := rfl

theorem argmin_abs_singleton (t x : ℝ) : argmin_abs t [x] = 0 := rfl

theorem argmin_abs_cons_cons (t x y : ℝ) (rest : List ℝ) :
    argmin_abs t (x :: y :: rest) =
      if |(y :: rest).getD (argmin_abs t (y :: rest)) 0 - t| < |x - t| then
        argmin_abs t (y :: rest) + 1
      else 0 := by
  rw [argmin_abs]

theorem argmin_abs_lt_length (t : ℝ) (xs : List ℝ) (h : xs ≠ []) :
    argmin_abs t xs < xs.length := by
  induction xs with
  | nil => exact absurd rfl h
  | cons x rest ih =>
      cases rest with
      | nil => simp [argmin_abs_singleton]
      | cons y rest' =>
          have hr := ih (by simp)
          rw [argmin_abs_cons_cons]
          by_cases hc :
              |(y :: rest').getD (argmin_abs t (y :: rest')) 0 - t| < |x - t|
          · rw [if_pos hc]
            simpa using Nat.succ_lt_succ hr
          · rw [if_neg hc]
            simp

theorem argmin_abs_le (t : ℝ) (xs : List ℝ) :
    ∀ i, i < xs.length →
      |xs.getD (argmin_abs t xs) 0 - t| ≤ |xs.getD i 0 - t| := by
  induction xs with
  | nil => intro i hi; simp at hi
  | cons x rest ih =>
      cases rest with
      | nil =>
          intro i hi
          have : i = 0 := by simpa using Nat.lt_one_iff.1 (by simpa using hi)
          subst this
          simp [argmin_abs_singleton]
      | cons y rest' =>
          intro i hi
          rw [argmin_abs_cons_cons]
          by_cases hc :
              |(y :: rest').getD (argmin_abs t (y :: rest')) 0 - t| < |x - t|
          · rw [if_pos hc]
            simp only [List.getD_cons_succ]
            cases i with
            | zero => simpa using le_of_lt hc
            | succ i => simpa using ih i (by simpa using hi)
          · rw [if_neg hc]
            push_neg at hc
            cases i with
            | zero => simp
            | succ i =>
                simp only [List.getD_cons_zero, List.getD_cons_succ]
                exact le_trans hc (ih i (by simpa using hi))

theorem argmin_abs_first (t : ℝ) (xs : List ℝ) :
    ∀ i, i < argmin_abs t xs →
      |xs.getD (argmin_abs t xs) 0 - t| < |xs.getD i 0 - t| := by
  induction xs with
  | nil => intro i hi; simp [argmin_abs_nil] at hi
  | cons x rest ih =>
      cases rest with
      | nil => intro i hi; simp [argmin_abs_singleton] at hi
      | cons y rest' =>
          intro i hi
          rw [argmin_abs_cons_cons] at hi ⊢
          by_cases hc :
              |(y :: rest').getD (argmin_abs t (y :: rest')) 0 - t| < |x - t|
          · rw [if_pos hc] at hi ⊢
            cases i with
            | zero => simpa using hc
            | succ i =>
                simp only [List.getD_cons_succ]
                exact ih i (by omega)
          · rw [if_neg hc] at hi
            omega

/-- C4: for every sweep and representative value, a value strictly outside
the sweep's [min, max] range is skipped (no sample); a value inside the
range selects the index of the sweep element with smallest absolute
difference, ties broken by the lowest index. -/
theorem claim_C4 (nv : List ℝ) (p : ℝ) (hne : nv ≠ []) :
    ((p < np_min nv ∨ np_max nv < p) → sample_index nv p = none) ∧
    (np_min nv ≤ p → p ≤ np_max nv →
      ∃ j, sample_index nv p = some j ∧ j < nv.length ∧
        (∀ i, i < nv.length → |nv.getD j 0 - p| ≤ |nv.getD i 0 - p|) ∧
        (∀ i, i < j → |nv.getD j 0 - p| < |nv.getD i 0 - p|)) := by
  constructor
  · intro h
    unfold sample_index
    rw [if_pos (h.elim (fun h1 => Or.inr h1) (fun h2 => Or.inl h2))]
  · intro h1 h2
    refine ⟨argmin_abs p nv, ?_, argmin_abs_lt_length p nv hne,
      argmin_abs_le p nv, argmin_abs_first p nv⟩
    unfold sample_index
    rw [if_neg (not_or.2 ⟨not_lt.2 h2, not_lt.2 h1⟩)]

/-- C4 witness: a representative value inside the range of the sweep `[2]`
produces the sample index `0`, with the nearest-point property. -/
theorem claim_C4_witness :
    ∃ j, sample_index [(2 : ℝ)] 2 = some j ∧ j < 1 ∧
      (∀ i, i < 1 →
        |([(2 : ℝ)] : List ℝ).getD j 0 - 2| ≤ |([(2 : ℝ)] : List ℝ).getD i 0 - 2|) ∧
      (∀ i, i < j →
        |([(2 : ℝ)] : List ℝ).getD j 0 - 2| < |([(2 : ℝ)] : List ℝ).getD i 0 - 2|) := by
  simpa using (claim_C4 [2] 2 (by simp)).2 (by simp [np_min]) (by simp [np_max])

/-! ### Lemmas about `logspace` -/

theorem logspace_length (a b : ℝ) (num : Nat) : (logspace a b num).length = num := by
  unfold logspace
  rw [List.length_map, List.length_range]

theorem logspace_pos (a b : ℝ) (num : Nat) : ∀ x ∈ logspace a b num, 0 < x := by
  intro x hx
  simp only [logspace, List.mem_map] at hx
  obtain ⟨k, _, rfl⟩ := hx
  exact Real.rpow_pos_of_pos (by norm_num) _

theorem logspace_one_le (a b : ℝ) (num : Nat) (ha : 0 ≤ a) (hab : a ≤ b) :
    ∀ x ∈ logspace a b num, 1 ≤ x := by
  intro x hx
  simp only [logspace, List.mem_map] at hx
  obtain ⟨k, _, rfl⟩ := hx
  have he : 0 ≤ a + (b - a) * (k : ℝ) / ((num - 1 : ℕ) : ℝ) := by
    have h0 : 0 ≤ (b - a) * (k : ℝ) / ((num - 1 : ℕ) : ℝ) :=
      div_nonneg (mul_nonneg (by linarith) (Nat.cast_nonneg k)) (Nat.cast_nonneg _)
    linarith
  calc (1 : ℝ) = (10 : ℝ) ^ (0 : ℝ) := (Real.rpow_zero 10).symm
    _ ≤ _ := Real.rpow_le_rpow_of_exponent_le (by norm_num) he

theorem logspace_pairwise (a b : ℝ) (num : Nat) (hab : a ≤ b) :
    List.Pairwise (· ≤ ·) (logspace a b num) := by
  unfold logspace
  refine List.Pairwise.map _ (fun i j hij => ?_) (List.pairwise_lt_range num)
  apply Real.rpow_le_rpow_of_exponent_le (by norm_num)
  have h1 : (i : ℝ) ≤ (j : ℝ) := Nat.cast_le.2 (le_of_lt hij)
  have h3 : (b - a) * (i : ℝ) ≤ (b - a) * (j : ℝ) :=
    mul_le_mul_of_nonneg_left h1 (by linarith)
  rcases eq_or_lt_of_le (Nat.cast_nonneg (num - 1) : (0 : ℝ) ≤ ((num - 1 : ℕ) : ℝ))
    with h0 | h0
  · rw [← h0, div_zero, div_zero]
  · have := (div_le_div_iff_of_pos_right h0).2 h3
    linarith

/-- C7: each of the four generated size sweeps (two per file) has length
equal to the requested sample count 100, and its values are strictly
positive and monotonically non-decreasing. -/
theorem claim_C7 :
    (n_values.length = 100 ∧ List.Forall (fun x => 0 < x) n_values ∧
      List.Pairwise (· ≤ ·) n_values) ∧
    (n_values_dense.length = 100 ∧ List.Forall (fun x => 0 < x) n_values_dense ∧
      List.Pairwise (· ≤ ·) n_values_dense) ∧
    (n_vals.length = 100 ∧ List.Forall (fun x => 0 < x) n_vals ∧
      List.Pairwise (· ≤ ·) n_vals) ∧
    (n_vals_dense.length = 100 ∧ List.Forall (fun x => 0 < x) n_vals_dense ∧
      List.Pairwise (· ≤ ·) n_vals_dense) := by
  refine ⟨⟨?_, ?_, ?_⟩, ⟨?_, ?_, ?_⟩, ⟨?_, ?_, ?_⟩, ⟨?_, ?_, ?_⟩⟩ <;>
    first
      | exact logspace_length _ _ _
      | exact List.forall_iff_forall_mem.2 (logspace_pos _ _ _)
      | exact logspace_pairwise _ _ _ (by norm_num)

/-! ### Series well-formedness lemmas for C6 -/

theorem series_ok_dijkstra (n m : List ℝ) (hlen : m.length = n.length)
    (hn : ∀ x ∈ n, 1 ≤ x) (hm : ∀ x ∈ m, 0 ≤ x) :
    ∃ s, cost_dijkstra (n.map fin) (m.map fin) = some s ∧ series_ok s n.length := by
  refine ⟨_, cost_dijkstra_eq n m hlen, ?_, ?_⟩
  · simp [List.length_zipWith]; omega
  · refine List.forall_iff_forall_mem.2 fun v hv => ?_
    obtain ⟨b, hb, a, ha, rfl⟩ := exists_of_mem_zipWith hv
    have h1 := hn a ha
    rw [np_log2_fin_pos (by linarith), np_mul_fin, np_add_fin]
    exact ⟨_, add_nonneg (hm b hb)
      (mul_nonneg (by linarith) (Real.logb_nonneg one_lt_two h1)), rfl⟩

theorem series_ok_duan (n m : List ℝ) (hlen : m.length = n.length)
    (hn : ∀ x ∈ n, 1 ≤ x) (hm : ∀ x ∈ m, 0 ≤ x) :
    ∃ s, cost_duan_et_al (n.map fin) (m.map fin) = some s ∧ series_ok s n.length := by
  refine ⟨_, cost_duan_et_al_eq n m hlen, ?_, ?_⟩
  · simp [List.length_zipWith]; omega
  · refine List.forall_iff_forall_mem.2 fun v hv => ?_
    obtain ⟨b, hb, a, ha, rfl⟩ := exists_of_mem_zipWith hv
    have h1 := hn a ha
    have hlb : 0 ≤ Real.logb 2 a := Real.logb_nonneg one_lt_two h1
    rw [np_log2_fin_pos (by linarith)]
    simp only [isneginf_fin, Bool.false_eq_true, if_false]
    rw [np_pow23_fin hlb, np_mul_fin]
    exact ⟨_, mul_nonneg (hm b hb) (Real.rpow_nonneg hlb _), rfl⟩

theorem series_ok_grover (n m : List ℝ) (hlen : n.length = m.length)
    (hn : ∀ x ∈ n, 0 ≤ x) (hm : ∀ x ∈ m, 0 ≤ x) :
    ∃ s, cost_quantum_grover (n.map fin) (m.map fin) = some s ∧
      series_ok s n.length := by
  refine ⟨_, cost_quantum_grover_eq n m hlen, ?_, ?_⟩
  · simp [List.length_zipWith]; omega
  · refine List.forall_iff_forall_mem.2 fun v hv => ?_
    obtain ⟨a, ha, b, hb, rfl⟩ := exists_of_mem_zipWith hv
    rw [np_sqrt_fin (hn a ha), np_mul_fin]
    exact ⟨_, mul_nonneg (Real.sqrt_nonneg a) (hm b hb), rfl⟩

theorem series_ok_wesolowski (n m l : List ℝ) (hnm : n.length = m.length)
    (hml : m.length = l.length) (hm : ∀ x ∈ m, 0 ≤ x) (hl : ∀ x ∈ l, 0 ≤ x) :
    ∃ s, cost_quantum_wesolowski (n.map fin) (m.map fin) (l.map fin) = some s ∧
      series_ok s n.length := by
  refine ⟨_, cost_quantum_wesolowski_eq n m l (by omega), ?_, ?_⟩
  · simp [List.length_zipWith]; omega
  · refine List.forall_iff_forall_mem.2 fun v hv => ?_
    obtain ⟨c, hc, b, hb, rfl⟩ := exists_of_mem_zipWith hv
    rw [np_sqrt_fin (hm b hb), np_mul_fin]
    exact ⟨_, mul_nonneg (hl c hc) (Real.sqrt_nonneg b), rfl⟩

theorem run_costs_dijkstra (nv : List ℝ) (mf : ℝ → ℝ) (lf : Option (ℝ → ℝ)) :
    (run_costs nv mf lf).dijkstra
      = cost_dijkstra (nv.map fin) ((nv.map mf).map fin) := rfl

theorem run_costs_duan (nv : List ℝ) (mf : ℝ → ℝ) (lf : Option (ℝ → ℝ)) :
    (run_costs nv mf lf).duan
      = cost_duan_et_al (nv.map fin) ((nv.map mf).map fin) := rfl

theorem run_costs_grover (nv : List ℝ) (mf : ℝ → ℝ) (lf : Option (ℝ → ℝ)) :
    (run_costs nv mf lf).grover
      = cost_quantum_grover (nv.map fin) ((nv.map mf).map fin) := rfl

theorem run_costs_wesolowski (nv : List ℝ) (mf : ℝ → ℝ) (lf : Option (ℝ → ℝ)) :
    (run_costs nv mf lf).wesolowski
      = lf.map (fun f => cost_quantum_wesolowski (nv.map fin) ((nv.map mf).map fin)
          ((nv.map f).map fin)) := by
  cases lf <;> rfl

theorem costs_ok_of (nv : List ℝ) (mf : ℝ → ℝ) (lf : Option (ℝ → ℝ))
    (hn : ∀ x ∈ nv, 1 ≤ x) (hmf : ∀ x, 1 ≤ x → 0 ≤ mf x)
    (hlf : ∀ f ∈ lf.toList, ∀ x, 1 ≤ x → 0 ≤ f x) :
    costs_ok nv mf lf := by
  have hm : ∀ x ∈ nv.map mf, 0 ≤ x := by
    intro x hx
    obtain ⟨y, hy, rfl⟩ := List.mem_map.1 hx
    exact hmf y (hn y hy)
  have hlen : (nv.map mf).length = nv.length := List.length_map _ _
  unfold costs_ok
  refine ⟨?_, ?_, ?_, ?_⟩
  · rw [run_costs_dijkstra]
    exact series_ok_dijkstra nv (nv.map mf) hlen hn hm
  · rw [run_costs_duan]
    exact series_ok_duan nv (nv.map mf) hlen hn hm
  · rw [run_costs_grover]
    exact series_ok_grover nv (nv.map mf) hlen.symm
      (fun x hx => le_trans zero_le_one (hn x hx)) hm
  · cases lf with
    | none => rw [run_costs_wesolowski]; rfl
    | some f =>
        have hl : ∀ x ∈ nv.map f, 0 ≤ x := by
          intro x hx
          obtain ⟨y, hy, rfl⟩ := List.mem_map.1 hx
          exact hlf f (by simp) y (hn y hy)
        obtain ⟨s, hs, hok⟩ := series_ok_wesolowski nv (nv.map mf) (nv.map f)
          hlen.symm (by simp) hm hl
        exact ⟨s, by rw [run_costs_wesolowski]; simpa using hs, hok⟩

/-- C6: for each of the six scenario runs of the program, every derived
cost series is produced with length equal to the sweep length, and every
value in every series is a finite non-negative real; the fourth
(divide-and-conquer-quantum) series exists exactly when a path-length
function is supplied (always, in the four comprehensive runs; never, in the
two basic runs, which call only the three two-argument cost functions). -/
theorem claim_C6 :
    (∃ s, cost_dijkstra (n_values.map fin) (m_sparse.map fin) = some s ∧
      series_ok s n_values.length) ∧
    (∃ s, cost_duan_et_al (n_values.map fin) (m_sparse.map fin) = some s ∧
      series_ok s n_values.length) ∧
    (∃ s, cost_quantum_grover (n_values.map fin) (m_sparse.map fin) = some s ∧
      series_ok s n_values.length) ∧
    (∃ s, cost_dijkstra (n_values_dense.map fin) (m_dense.map fin) = some s ∧
      series_ok s n_values_dense.length) ∧
    (∃ s, cost_duan_et_al (n_values_dense.map fin) (m_dense.map fin) = some s ∧
      series_ok s n_values_dense.length) ∧
    (∃ s, cost_quantum_grover (n_values_dense.map fin) (m_dense.map fin) = some s ∧
      series_ok s n_values_dense.length) ∧
    costs_ok n_vals (fun n => 10 * n) (some (fun n => Real.logb 2 n ^ 2)) ∧
    costs_ok n_vals (fun n => 10 * n) (some (fun n => n / 10)) ∧
    costs_ok n_vals_dense (fun n => n ^ 2 / 100) (some (fun n => Real.logb 2 n ^ 2)) ∧
    costs_ok n_vals_dense (fun n => n ^ 2 / 100) (some (fun n => n / 10)) := by
  have hA : ∀ x ∈ n_values, 1 ≤ x := logspace_one_le 3 9 100 (by norm_num) (by norm_num)
  have hB : ∀ x ∈ n_values_dense, 1 ≤ x :=
    logspace_one_le 3 5 100 (by norm_num) (by norm_num)
  have hmA : ∀ x ∈ m_sparse, 0 ≤ x := by
    intro x hx
    obtain ⟨y, hy, rfl⟩ := List.mem_map.1 hx
    have := hA y hy
    linarith
  have hmB : ∀ x ∈ m_dense, 0 ≤ x := by
    intro x hx
    obtain ⟨y, hy, rfl⟩ := List.mem_map.1 hx
    positivity
  have hlA : (m_sparse).length = n_values.length := List.length_map _ _
  have hlB : (m_dense).length = n_values_dense.length := List.length_map _ _
  refine ⟨series_ok_dijkstra _ _ hlA hA hmA, series_ok_duan _ _ hlA hA hmA,
    series_ok_grover _ _ hlA.symm (fun x hx => le_trans zero_le_one (hA x hx)) hmA,
    series_ok_dijkstra _ _ hlB hB hmB, series_ok_duan _ _ hlB hB hmB,
    series_ok_grover _ _ hlB.symm (fun x hx => le_trans zero_le_one (hB x hx)) hmB,
    ?_, ?_, ?_, ?_⟩
  · exact costs_ok_of _ _ _ hA (fun x hx => by linarith)
      (by intro f hf x hx; simp at hf; subst hf
          show (0 : ℝ) ≤ Real.logb 2 x ^ 2; positivity)
  · exact costs_ok_of _ _ _ hA (fun x hx => by linarith)
      (by intro f hf x hx; simp at hf; subst hf
          show (0 : ℝ) ≤ x / 10; linarith)
  · exact costs_ok_of _ _ _ hB (fun x hx => by positivity)
      (by intro f hf x hx; simp at hf; subst hf
          show (0 : ℝ) ≤ Real.logb 2 x ^ 2; positivity)
  · exact costs_ok_of _ _ _ hB (fun x hx => by positivity)
      (by intro f hf x hx; simp at hf; subst hf
          show (0 : ℝ) ≤ x / 10; linarith)

/-! ### Frame lemmas for the store model -/

theorem length_allocBuf (st : NpStore) (b : List NpFloat) :
    (allocBuf st b).length = st.length + 1 := by
  simp [allocBuf]

theorem readBuf_allocBuf (st : NpStore) (b : List NpFloat) (i : Nat)
    (h : i < st.length) : readBuf (allocBuf st b) i = readBuf st i := by
  unfold readBuf allocBuf
  exact List.getD_append st [b] [] i h

theorem readBuf_set_lt (st : NpStore) (j : Nat) (b : List NpFloat) (i : Nat)
    (h : i < j) : readBuf (st.set j b) i = readBuf st i := by
  unfold readBuf
  rw [List.getD_eq_getElem?_getD, List.getD_eq_getElem?_getD,
    List.getElem?_set_ne (by omega : j ≠ i)]

/-- C10: none of the four cost functions mutates its argument arrays: in
the store model, after each call every input buffer reads back unchanged.
The only in-place write the code performs — the masked assignment
`log_val[np.isneginf(log_val)] = 0` inside `cost_duan_et_al` — targets the
buffer freshly allocated for `np.log2(n)`, whose id lies beyond every
pre-existing buffer. -/
theorem claim_C10 (st : NpStore) (nId mId lId : Nat)
    (hn : nId < st.length) (hm : mId < st.length) (hl : lId < st.length) :
    (readBuf (cost_dijkstra_heap st nId mId).1 nId = readBuf st nId ∧
     readBuf (cost_dijkstra_heap st nId mId).1 mId = readBuf st mId) ∧
    (readBuf (cost_duan_et_al_heap st nId mId).1 nId = readBuf st nId ∧
     readBuf (cost_duan_et_al_heap st nId mId).1 mId = readBuf st mId) ∧
    (readBuf (cost_quantum_grover_heap st nId mId).1 nId = readBuf st nId ∧
     readBuf (cost_quantum_grover_heap st nId mId).1 mId = readBuf st mId) ∧
    (readBuf (cost_quantum_wesolowski_heap st nId mId lId).1 nId = readBuf st nId ∧
     readBuf (cost_quantum_wesolowski_heap st nId mId lId).1 mId = readBuf st mId ∧
     readBuf (cost_quantum_wesolowski_heap st nId mId lId).1 lId = readBuf st lId) := by
  have key3 : ∀ (i : Nat), i < st.length → ∀ b1 b2 b3,
      readBuf (allocBuf (allocBuf (allocBuf st b1) b2) b3) i = readBuf st i := by
    intro i hi b1 b2 b3
    rw [readBuf_allocBuf _ _ _ (by rw [length_allocBuf, length_allocBuf]; omega),
      readBuf_allocBuf _ _ _ (by rw [length_allocBuf]; omega),
      readBuf_allocBuf _ _ _ hi]
  have key2 : ∀ (i : Nat), i < st.length → ∀ b1 b2,
      readBuf (allocBuf (allocBuf st b1) b2) i = readBuf st i := by
    intro i hi b1 b2
    rw [readBuf_allocBuf _ _ _ (by rw [length_allocBuf]; omega),
      readBuf_allocBuf _ _ _ hi]
  have keyDuan : ∀ (i : Nat), i < st.length → ∀ b1 b2 b3 b4,
      readBuf (allocBuf (allocBuf ((allocBuf st b1).set st.length b2) b3) b4) i
        = readBuf st i := by
    intro i hi b1 b2 b3 b4
    rw [readBuf_allocBuf _ _ _
        (by rw [length_allocBuf, List.length_set, length_allocBuf]; omega),
      readBuf_allocBuf _ _ _ (by rw [List.length_set, length_allocBuf]; omega),
      readBuf_set_lt _ _ _ _ hi, readBuf_allocBuf _ _ _ hi]
  refine ⟨⟨key3 nId hn _ _ _, key3 mId hm _ _ _⟩,
    ⟨keyDuan nId hn _ _ _ _, keyDuan mId hm _ _ _ _⟩,
    ⟨key2 nId hn _ _, key2 mId hm _ _⟩,
    ⟨key2 nId hn _ _, key2 mId hm _ _, key2 lId hl _ _⟩⟩

/-- C10 witness: on a concrete three-buffer store, `cost_duan_et_al`'s
in-place masked assignment leaves the first input buffer unchanged. -/
theorem claim_C10_witness :
    readBuf (cost_duan_et_al_heap [[fin 2], [fin 3], [fin 4]] 0 1).1 0
      = readBuf [[fin 2], [fin 3], [fin 4]] 0 :=
  (claim_C10 [[fin 2], [fin 3], [fin 4]] 0 1 2 (by simp) (by simp) (by simp)).2.1.1

end
